import Mathlib

/-!
Verification of the healthcare-plans simulation engine
(`simulation/engine.py`, historical revision `engine_20251122212855.py`).

The engine is embedded shallowly:

* money amounts (Python floats whose arithmetic here is exact on the
  integral prices involved) are modelled as `ℚ`;
* a plan's `included` field is `some n` for a finite allotment and `none`
  for the `float('inf')` sentinel of the Unlimited plan;
* the Python dict `plan_annual_costs` is modelled as an association list in
  insertion order (Python 3.7+ dicts preserve insertion order, which is what
  the engine's `min(..., key=dict.get)` tie-break relies on);
* randomness is modelled by oracles: `run` takes a stream of uniform segment
  draws (one rational per user) and a table of monthly visit draws (one
  natural number per user and month), which is exactly the information the
  engine extracts from `random.random()` / the Poisson sampler;
* the fallback Knuth Poisson sampler `_generate_poisson_visit` is modelled
  separately (`knuthLoop`), fuel-bounded, parameterised by the precomputed
  threshold `L = exp(-lam)`.
-/

namespace Healthcare

/-- A billing plan, as one entry of `self.plans` in `SimulationEngine.__init__`:
`{"name": ..., "price": ..., "included": ..., "extra": ...}`.
`included = none` encodes the `float('inf')` sentinel of the Unlimited plan. -/
structure Plan where
  name : String
  price : ℚ
  included : Option ℕ
  extra : ℚ
deriving DecidableEq, Repr

/-- The overage computation of `SimulationEngine.run`:
`overage = 0` when `plan['included'] == float('inf')`, else
`max(0, monthly_visits - plan['included'])` (truncated `ℕ` subtraction). -/
def overage (plan : Plan) (visits : ℕ) : ℕ :=
  match plan.included with
  | none => 0
  | some inc => visits - inc

/-- One month's bill as computed inline in `SimulationEngine.run`:
`monthly_bill = plan['price'] + overage * plan['extra']`. -/
def monthlyBill (plan : Plan) (visits : ℕ) : ℚ :=
  plan.price + (overage plan visits : ℚ) * plan.extra

/-- A plan's annual cost recomputed from a list of monthly visit draws:
the sum of the 12 monthly bills the engine accumulates into
`plan_annual_costs[plan['name']]`. -/
def annualCost (plan : Plan) (draws : List ℕ) : ℚ :=
  (draws.map (monthlyBill plan)).sum

/-- The hardcoded four-plan catalog of `SimulationEngine.__init__`. -/
def enginePlans : List Plan :=
  [ { name := "Lite Plan", price := 20, included := some 2, extra := 15 },
    { name := "Standard Plan", price := 50, included := some 6, extra := 10 },
    { name := "Chronic Care Plan", price := 90, included := some 12, extra := 5 },
    { name := "Unlimited Plan", price := 150, included := none, extra := 0 } ]

/-- `self.cost_per_visit = 30` in `SimulationEngine.__init__`. -/
def cost_per_visit : ℚ := 30

/-- Segment assignment from one uniform draw (`rand_val = random.random()` in
`SimulationEngine.run`): `u < 0.50` → Healthy (λ=1.0), `u < 0.80` → Average
(λ=5.0), else Chronic (λ=12.0). Returns `(user_type, lam)`. -/
def assignSegment (u : ℚ) : String × ℚ :=
  if u < 1/2 then ("Healthy", 1)
  else if u < 4/5 then ("Average", 5)
  else ("Chronic", 12)

/-- `plan_annual_costs[key] += delta` on the insertion-ordered dict, modelled
as an association list: add `delta` to the first entry with key `key`.
(A missing key would be a Python `KeyError`; it is unreachable in the engine
because the dict is seeded from the same plan list, so the model leaves the
list unchanged in that case.) -/
def updateKey : List (String × ℚ) → String → ℚ → List (String × ℚ)
  | [], _, _ => []
  | (k, v) :: rest, key, d =>
    if k = key then (k, v + d) :: rest else (k, v) :: updateKey rest key d

/-- The dict comprehension `{p['name']: 0.0 for p in self.plans}`: keys in
first-occurrence order, every value `0` (re-assigning an existing key keeps
its position and its `0.0` value). -/
def initCosts (plans : List Plan) : List (String × ℚ) :=
  plans.foldl
    (fun d p => if d.any (fun e => e.1 = p.name) then d else d ++ [(p.name, 0)]) []

/-- The inner `for plan in self.plans` loop of one month in
`SimulationEngine.run`: every plan's monthly bill for the month's single
visit draw is added to that plan's accumulated annual cost. -/
def monthStep (plans : List Plan) (costs : List (String × ℚ)) (v : ℕ) :
    List (String × ℚ) :=
  plans.foldl (fun cs p => updateKey cs p.name (monthlyBill p v)) costs

/-- The 12-month accumulation loop of `SimulationEngine.run` for one user,
with the user's monthly visit draws given as `draws`. -/
def userCosts (plans : List Plan) (draws : List ℕ) : List (String × ℚ) :=
  draws.foldl (monthStep plans) (initCosts plans)

/-- `min(iterable, key=...)` kernel: Python's `min` returns the FIRST item
attaining the minimal key value, so a new candidate replaces the current best
only when strictly smaller. -/
def minPairAux : (String × ℚ) → List (String × ℚ) → (String × ℚ)
  | best, [] => best
  | best, x :: rest => minPairAux (if x.2 < best.2 then x else best) rest

/-- `min(plan_annual_costs, key=plan_annual_costs.get)` on the
insertion-ordered dict, paired with the looked-up value
`plan_annual_costs[best_plan_name]`.  The `[]` branch models the
`ValueError` Python raises on an empty dict; it is unreachable because the
engine's catalog is the nonempty hardcoded list. -/
def chooseBest : List (String × ℚ) → String × ℚ
  | [] => ("", 0)
  | x :: rest => minPairAux x rest

/-- One result row, the tuple appended to `data_rows` in
`SimulationEngine.run` (mirrors the `simulation_results` schema). -/
structure ResultRow where
  user_id : ℕ
  user_type : String
  annual_visits : ℕ
  chosen_plan : String
  user_annual_cost : ℚ
  company_revenue : ℚ
  company_cost : ℚ
  company_profit : ℚ
deriving DecidableEq, Repr

/-- One iteration of the `for user_id in range(1, num_users + 1)` loop:
segment from the uniform draw `u`, 12-month cost accumulation from `draws`,
rational plan choice, and the economic fields. -/
def simulateUser (plans : List Plan) (cpv : ℚ) (uid : ℕ) (u : ℚ)
    (draws : List ℕ) : ResultRow :=
  let seg := assignSegment u
  let total := draws.sum
  let best := chooseBest (userCosts plans draws)
  let revenue := best.2
  let cost := (total : ℚ) * cpv
  { user_id := uid
    user_type := seg.1
    annual_visits := total
    chosen_plan := best.1
    user_annual_cost := best.2
    company_revenue := revenue
    company_cost := cost
    company_profit := revenue - cost }

/-- The 12 monthly visit draws the engine obtains for user `uid`
(one call to `_generate_poisson_visit` per month, abstracted as the
oracle `visit`). -/
def monthDraws (visit : ℕ → ℕ → ℕ) (uid : ℕ) : List ℕ :=
  (List.range 12).map (visit uid)

/-- `SimulationEngine.run`: the list `data_rows` it builds (the subsequent
sqlite insertion is persistence, outside the computational core).  `segU uid`
is the `random.random()` draw that picks user `uid`'s segment; `visit uid m`
is the visit count drawn for user `uid` in month `m`. -/
def run (numUsers : ℕ) (segU : ℕ → ℚ) (visit : ℕ → ℕ → ℕ) : List ResultRow :=
  (List.range numUsers).map fun i =>
    simulateUser enginePlans cost_per_visit (i + 1) (segU (i + 1))
      (monthDraws visit (i + 1))

/-- `SELECT SUM(company_profit) FROM simulation_results`: SQL `SUM` over an
empty table is `NULL` (Python `None`), otherwise the sum. -/
def sqlSumProfit : List ResultRow → Option ℚ
  | [] => none
  | rows => some ((rows.map (·.company_profit)).sum)

/-- The f-string `f"...{total_profit:,.2f}"` in `SimulationEngine.analyze`:
applying a numeric format spec to `None` raises `TypeError`, modelled as
`Except.error`; on a number it renders it. -/
def formatTotalProfit : Option ℚ → Except String String
  | none => Except.error "TypeError: unsupported format string passed to NoneType.__format__"
  | some v => Except.ok (toString v)

/-- The total-profit step of `SimulationEngine.analyze` on the stored rows. -/
def analyzeTotalProfit (rows : List ResultRow) : Except String String :=
  formatTotalProfit (sqlSumProfit rows)

/-- The `while p > L` loop of the fallback `_generate_poisson_visit`
(the non-numpy branch), with `L` the precomputed `math.exp(-lam)`,
state `(p, k)`, a stream `draws` of `random.random()` values consumed from
index `i`, and fuel bounding the number of iterations (`none` = the loop has
not finished within `fuel` iterations). Returns `k - 1` as an integer,
exactly as the Python `return k - 1`. -/
def knuthLoop : ℕ → ℚ → ℚ → ℕ → (ℕ → ℚ) → ℕ → Option ℤ
  | 0, _, _, _, _, _ => none
  | fuel + 1, L, p, k, draws, i =>
    if p > L then knuthLoop fuel L (p * draws i) (k + 1) draws (i + 1)
    else some ((k : ℤ) - 1)

/-- `_generate_poisson_visit` fallback entry: `k = 0`, `p = 1.0`, then the
`while p > L` loop. -/
def generatePoissonVisit (fuel : ℕ) (L : ℚ) (draws : ℕ → ℚ) : Option ℤ :=
  knuthLoop fuel L 1 0 draws 0

/-! ### Structural lemmas about the Python `min`-over-dict kernel -/

/-- The running best of `minPairAux` only improves: the result's value is
below the initial best and below every candidate. -/
lemma minPairAux_le (l : List (String × ℚ)) :
    ∀ b : String × ℚ, (minPairAux b l).2 ≤ b.2 ∧
      ∀ x ∈ l, (minPairAux b l).2 ≤ x.2 := by
  induction l with
  | nil => intro b; exact ⟨le_refl _, by simp⟩
  | cons x rest ih =>
    intro b
    simp only [minPairAux]
    obtain ⟨h1, h2⟩ := ih (if x.2 < b.2 then x else b)
    refine ⟨h1.trans ?_, ?_⟩
    · split_ifs with h
      · exact le_of_lt h
      · exact le_refl _
    · intro y hy
      rcases List.mem_cons.mp hy with rfl | hy
      · refine h1.trans ?_
        split_ifs with h
        · exact le_refl _
        · exact le_of_not_lt h
      · exact h2 y hy

/-- First-wins characterization of Python's `min`: the list splits as
`l₁ ++ best :: l₂` where everything before `best` is strictly larger, i.e.
`best` sits at the first position attaining the minimum. -/
lemma minPairAux_first (l : List (String × ℚ)) :
    ∀ b : String × ℚ, ∃ l₁ l₂, b :: l = l₁ ++ (minPairAux b l) :: l₂ ∧
      ∀ y ∈ l₁, (minPairAux b l).2 < y.2 := by
  induction l with
  | nil => intro b; exact ⟨[], [], rfl, by simp⟩
  | cons x rest ih =>
    intro b
    by_cases hx : x.2 < b.2
    · obtain ⟨l₁, l₂, heq, hstrict⟩ := ih x
      refine ⟨b :: l₁, l₂, ?_, ?_⟩
      · simp only [minPairAux, if_pos hx, List.cons_append]
        rw [← heq]
      · intro y hy
        simp only [minPairAux, if_pos hx]
        rcases List.mem_cons.mp hy with rfl | hy
        · exact lt_of_le_of_lt (minPairAux_le rest x).1 hx
        · exact hstrict y hy
    · obtain ⟨l₁, l₂, heq, hstrict⟩ := ih b
      cases l₁ with
      | nil =>
        simp only [List.nil_append] at heq
        refine ⟨[], x :: rest, ?_, by simp⟩
        simp only [minPairAux, if_neg hx, List.nil_append]
        rw [← (List.cons.injEq _ _ _ _).mp heq |>.1]
      | cons c l₁' =>
        simp only [List.cons_append] at heq
        obtain ⟨rfl, hrest⟩ := (List.cons.injEq _ _ _ _).mp heq
        refine ⟨b :: x :: l₁', l₂, ?_, ?_⟩
        · simp only [minPairAux, if_neg hx, List.cons_append]
          conv_lhs => rw [hrest]
        · intro y hy
          simp only [minPairAux, if_neg hx] at *
          have hb : (minPairAux b rest).2 < b.2 := hstrict b (List.mem_cons_self _ _)
          rcases List.mem_cons.mp hy with rfl | hy
          · exact hb
          · rcases List.mem_cons.mp hy with rfl | hy
            · exact lt_of_lt_of_le hb (le_of_not_lt hx)
            · exact hstrict y (List.mem_cons_of_mem _ hy)

/-! ### The dict of accumulated annual costs equals a map of per-plan sums -/

/-- A fold of `updateKey`s whose keys all differ from the head entry's key
passes over that head entry untouched. -/
lemma foldl_updateKey_pass (v : ℕ) (k : String) (c : ℚ) (ps : List Plan) :
    ∀ t : List (String × ℚ), (∀ q ∈ ps, q.name ≠ k) →
      ps.foldl (fun cs p => updateKey cs p.name (monthlyBill p v)) ((k, c) :: t)
        = (k, c) :: ps.foldl (fun cs p => updateKey cs p.name (monthlyBill p v)) t := by
  induction ps with
  | nil => intro t _; rfl
  | cons p ps ih =>
    intro t hk
    simp only [List.foldl_cons]
    rw [updateKey, if_neg (Ne.symm (hk p (List.mem_cons_self _ _)))]
    exact ih _ (fun q hq => hk q (List.mem_cons_of_mem _ hq))

/-- One month's inner plan loop, acting on a dict whose entries are exactly
the catalog's plans (names distinct), adds each plan's monthly bill to its
own entry. -/
lemma monthStep_map (v : ℕ) (plans : List Plan) :
    ∀ g : Plan → ℚ, (plans.map Plan.name).Nodup →
      monthStep plans (plans.map fun q => (q.name, g q)) v
        = plans.map fun q => (q.name, g q + monthlyBill q v) := by
  induction plans with
  | nil => intro g _; rfl
  | cons p rest ih =>
    intro g hnd
    rw [List.map_cons, List.nodup_cons] at hnd
    simp only [List.map_cons, monthStep, List.foldl_cons]
    rw [updateKey, if_pos rfl]
    rw [foldl_updateKey_pass v p.name (g p + monthlyBill p v) rest _
      (fun q hq h => hnd.1 (h ▸ List.mem_map_of_mem Plan.name hq))]
    have := ih g hnd.2
    simp only [monthStep] at this
    rw [this]

/-- The dict-building fold, started from a seed holding none of the upcoming
names, appends one zero entry per plan in order (names distinct). -/
lemma initCosts_aux :
    ∀ (plans : List Plan) (d : List (String × ℚ)),
      (∀ p ∈ plans, ∀ e ∈ d, e.1 ≠ p.name) → (plans.map Plan.name).Nodup →
      plans.foldl
          (fun d p => if d.any (fun e => e.1 = p.name) then d else d ++ [(p.name, 0)]) d
        = d ++ plans.map fun q => (q.name, (0 : ℚ)) := by
  intro plans
  induction plans with
  | nil => intro d _ _; simp
  | cons p rest ih =>
    intro d hd hnd
    rw [List.map_cons, List.nodup_cons] at hnd
    simp only [List.foldl_cons]
    have hany : d.any (fun e => e.1 = p.name) = false := by
      rw [List.any_eq_false]
      intro e he
      simp only [decide_eq_true_eq]
      exact hd p (List.mem_cons_self _ _) e he
    rw [hany, if_neg (by simp)]
    have hd' : ∀ q ∈ rest, ∀ e ∈ d ++ [(p.name, (0 : ℚ))], e.1 ≠ q.name := by
      intro q hq e he
      rcases List.mem_append.mp he with he | he
      · exact hd q (List.mem_cons_of_mem _ hq) e he
      · rw [List.mem_singleton.mp he]
        show p.name ≠ q.name
        exact fun h => hnd.1 (by rw [h]; exact List.mem_map_of_mem Plan.name hq)
    rw [ih (d ++ [(p.name, 0)]) hd' hnd.2, List.append_assoc, List.singleton_append,
      List.map_cons]

/-- With distinct plan names the dict comprehension
`{p['name']: 0.0 for p in plans}` is just the plans in order, each with
value `0`. -/
lemma initCosts_nodup (plans : List Plan) (hnd : (plans.map Plan.name).Nodup) :
    initCosts plans = plans.map fun q => (q.name, (0 : ℚ)) := by
  have h := initCosts_aux plans [] (by simp) hnd
  simpa [initCosts] using h

/-- Folding the 12 monthly steps over a seeded dict accumulates, per plan,
exactly that plan's sum of monthly bills. -/
lemma foldl_monthStep_map (draws : List ℕ) :
    ∀ (plans : List Plan) (g : Plan → ℚ), (plans.map Plan.name).Nodup →
      draws.foldl (monthStep plans) (plans.map fun q => (q.name, g q))
        = plans.map fun q => (q.name, g q + annualCost q draws) := by
  induction draws with
  | nil =>
    intro plans g _
    simp only [List.foldl_nil, annualCost, List.map_nil, List.sum_nil, add_zero]
  | cons v vs ih =>
    intro plans g hnd
    simp only [List.foldl_cons]
    rw [monthStep_map v plans g hnd, ih plans _ hnd]
    simp only [annualCost, List.map_cons, List.sum_cons, add_assoc]

/-- The engine's accumulated `plan_annual_costs` dict, for a catalog with
distinct plan names, is the catalog in order paired with each plan's
recomputed annual cost. -/
lemma userCosts_eq_map (plans : List Plan) (draws : List ℕ)
    (hnd : (plans.map Plan.name).Nodup) :
    userCosts plans draws = plans.map fun q => (q.name, annualCost q draws) := by
  unfold userCosts
  rw [initCosts_nodup plans hnd]
  have h := foldl_monthStep_map draws plans (fun _ => 0) hnd
  simpa using h

/-- The hardcoded catalog's plan names are distinct. -/
lemma enginePlans_names_nodup : (enginePlans.map Plan.name).Nodup := by decide

/-- `chooseBest` on the accumulated dict of a nonempty distinct-name catalog
returns a value below every plan's recomputed annual cost, attained by the
first plan in catalog order reaching the minimum (strictly larger costs on
the whole prefix before it). -/
lemma chooseBest_spec (plans : List Plan) (draws : List ℕ)
    (hnd : (plans.map Plan.name).Nodup) (hne : plans ≠ []) :
    (∀ p ∈ plans, (chooseBest (userCosts plans draws)).2 ≤ annualCost p draws) ∧
    ∃ l₁ l₂ p, plans = l₁ ++ p :: l₂ ∧
      p.name = (chooseBest (userCosts plans draws)).1 ∧
      annualCost p draws = (chooseBest (userCosts plans draws)).2 ∧
      ∀ q ∈ l₁, (chooseBest (userCosts plans draws)).2 < annualCost q draws := by
  rw [userCosts_eq_map plans draws hnd]
  cases plans with
  | nil => exact absurd rfl hne
  | cons p0 rest =>
    simp only [List.map_cons, chooseBest]
    set f : Plan → String × ℚ := fun q => (q.name, annualCost q draws) with hf
    set m := minPairAux (f p0) (rest.map f) with hm
    obtain ⟨h0, hrest⟩ := minPairAux_le (rest.map f) (f p0)
    constructor
    · intro p hp
      rcases List.mem_cons.mp hp with rfl | hp
      · exact h0
      · exact hrest (f p) (List.mem_map_of_mem f hp)
    · obtain ⟨c₁, c₂, heq, hstrict⟩ := minPairAux_first (rest.map f) (f p0)
      have hmap : (p0 :: rest).map f = c₁ ++ m :: c₂ := by
        rw [List.map_cons]; exact heq
      obtain ⟨l₁, l₂', hplans, hmapl₁, hmapl₂⟩ := List.map_eq_append_iff.mp hmap
      obtain ⟨p, t, hl₂', hfp, _⟩ := List.map_eq_cons_iff.mp hmapl₂
      subst hl₂'
      refine ⟨l₁, t, p, hplans, ?_, ?_, ?_⟩
      · simpa [hf] using congrArg Prod.fst hfp
      · simpa [hf] using congrArg Prod.snd hfp
      · intro q hq
        have hc : f q ∈ c₁ := hmapl₁ ▸ List.mem_map_of_mem f hq
        exact hstrict (f q) hc

/-- A list of rationals all bounded below by `c` has sum at least
`length * c`. -/
lemma length_mul_le_sum (c : ℚ) :
    ∀ l : List ℚ, (∀ x ∈ l, c ≤ x) → (l.length : ℚ) * c ≤ l.sum := by
  intro l
  induction l with
  | nil => intro _; simp
  | cons x xs ih =>
    intro h
    have h1 : (xs.length : ℚ) * c ≤ xs.sum :=
      ih fun y hy => h y (List.mem_cons_of_mem _ hy)
    have h2 : c ≤ x := h x (List.mem_cons_self _ _)
    simp only [List.length_cons, List.sum_cons]
    push_cast
    nlinarith

/-! ### Supporting facts about the fallback Knuth sampler -/

/-- Whenever the `while p > L` loop finishes, it returns at least `k - 1`
for the `k` it started from (each iteration only increments `k`). -/
lemma knuthLoop_le_result (fuel : ℕ) :
    ∀ (L p : ℚ) (k : ℕ) (draws : ℕ → ℚ) (i : ℕ) (r : ℤ),
      knuthLoop fuel L p k draws i = some r → (k : ℤ) - 1 ≤ r := by
  induction fuel with
  | zero => intro L p k draws i r h; simp [knuthLoop] at h
  | succ n ih =>
    intro L p k draws i r h
    rw [knuthLoop] at h
    by_cases hp : p > L
    · rw [if_pos hp] at h
      have := ih L (p * draws i) (k + 1) draws (i + 1) r h
      push_cast at this ⊢
      linarith
    · rw [if_neg hp] at h
      rw [← Option.some.injEq _ _ |>.mp h]

/-- For `L < 1` (i.e. `lam > 0`, since `L = exp(-lam)`), the fallback sampler
enters the loop at least once, so any value it returns is `≥ 0`. -/
lemma generatePoissonVisit_nonneg (fuel : ℕ) (L : ℚ) (draws : ℕ → ℚ)
    (hL : L < 1) (r : ℤ) (h : generatePoissonVisit fuel L draws = some r) :
    0 ≤ r := by
  cases fuel with
  | zero => simp [generatePoissonVisit, knuthLoop] at h
  | succ n =>
    rw [generatePoissonVisit, knuthLoop, if_pos hL] at h
    have := knuthLoop_le_result n L (1 * draws 0) 1 draws 1 r h
    simpa using this

/-! ### Claims -/

/-- C2: the spec's contract for `VisitGenerator` — output an integer `≥ 0`,
and `lam = 0` deterministically yields `0` — is violated by the fallback
`_generate_poisson_visit`: for `lam = 0` the threshold is
`L = exp(-0) = 1`, the `while p > L` guard is false at the initial
`p = 1.0`, the loop body never runs, and `k - 1 = -1` is returned, for every
draw sequence and any loop bound. (The code's `while` loop drops the
mandatory first iteration of Knuth's do-while formulation.) -/
theorem poisson_fallback_lambda_zero_returns_neg_one (fuel : ℕ) (draws : ℕ → ℚ) :
    generatePoissonVisit (fuel + 1) 1 draws = some (-1) := by
  rw [generatePoissonVisit, knuthLoop, if_neg (lt_irrefl 1)]
  rfl

/-- C3: with `num_users = 0` the engine produces the empty row sequence, but
the subsequent report step faults: `SELECT SUM(company_profit)` over the
empty table yields SQL `NULL` (Python `None`), and `analyze`'s
`f"...{total_profit:,.2f}"` then raises `TypeError` instead of reporting
zero/null aggregates. -/
theorem run_zero_users_analyze_type_error (segU : ℕ → ℚ) (visit : ℕ → ℕ → ℕ) :
    run 0 segU visit = [] ∧
      analyzeTotalProfit (run 0 segU visit) =
        Except.error
          "TypeError: unsupported format string passed to NoneType.__format__" := by
  exact ⟨rfl, rfl⟩

/-- C4: Scenario A — default catalog, `cost_per_visit = 30`, a user drawing
exactly 6 visits in each of the 12 months: annual costs Lite 960,
Standard 600, Chronic 1080, Unlimited 1800; chosen plan Standard,
`user_annual_cost = 600`, `company_cost = 2160`, `company_profit = -1560`. -/
theorem scenario_a_six_visits_each_month :
    userCosts enginePlans (monthDraws (fun _ _ => 6) 1) =
      [("Lite Plan", 960), ("Standard Plan", 600),
       ("Chronic Care Plan", 1080), ("Unlimited Plan", 1800)] ∧
    run 1 (fun _ => 0) (fun _ _ => 6) =
      [{ user_id := 1, user_type := "Healthy", annual_visits := 72,
         chosen_plan := "Standard Plan", user_annual_cost := 600,
         company_revenue := 600, company_cost := 2160,
         company_profit := -1560 }] := by
  have hd : monthDraws (fun _ _ => (6 : ℕ)) 1 = [6,6,6,6,6,6,6,6,6,6,6,6] := by decide
  constructor
  · rw [hd, userCosts_eq_map _ _ enginePlans_names_nodup]
    simp [enginePlans, annualCost, monthlyBill, overage]
    norm_num
  · have hrange : List.range 1 = [0] := by decide
    simp only [run, hrange, List.map_cons, List.map_nil]
    simp only [simulateUser, Nat.zero_add, hd]
    rw [userCosts_eq_map _ _ enginePlans_names_nodup]
    simp only [enginePlans, annualCost, monthlyBill, overage, List.map_cons,
      List.map_nil]
    norm_num [chooseBest, minPairAux, assignSegment, cost_per_visit]

/-- C6: for a plan with `included = none` (the `float('inf')` Unlimited
sentinel) the monthly bill is exactly the plan's monthly price for every
visit count, whatever the overage price. -/
theorem unlimited_monthly_bill_constant (plan : Plan)
    (h : plan.included = none) (v : ℕ) :
    monthlyBill plan v = plan.price := by
  simp [monthlyBill, overage, h]

/-- Witness for C6: the engine's Unlimited plan billed at 100 visits costs
exactly its monthly price 150. -/
theorem unlimited_monthly_bill_constant_witness :
    monthlyBill { name := "Unlimited Plan", price := 150,
                  included := none, extra := 0 } 100 = 150 :=
  unlimited_monthly_bill_constant _ rfl 100

/-- C8: segment assignment partitions the unit interval exhaustively:
the assigned segment is Healthy iff `u < 0.50`, Average iff
`0.50 ≤ u < 0.80`, and Chronic iff `0.80 ≤ u`; the function is total, so no
error branch exists. -/
theorem segment_partition_exhaustive (u : ℚ) :
    ((assignSegment u).1 = "Healthy" ↔ u < 1/2) ∧
    ((assignSegment u).1 = "Average" ↔ 1/2 ≤ u ∧ u < 4/5) ∧
    ((assignSegment u).1 = "Chronic" ↔ 4/5 ≤ u) := by
  by_cases h1 : u < 1/2
  · simp only [assignSegment, if_pos h1]
    refine ⟨⟨fun _ => h1, fun _ => trivial⟩, ?_, ?_⟩
    · exact ⟨fun h => absurd h (by decide), fun ⟨h, _⟩ => absurd h1 (not_lt.mpr h)⟩
    · exact ⟨fun h => absurd h (by decide), fun h => absurd h1 (not_lt.mpr (by linarith))⟩
  · by_cases h2 : u < 4/5
    · simp only [assignSegment, if_neg h1, if_pos h2]
      refine ⟨?_, ⟨fun _ => ⟨le_of_not_lt h1, h2⟩, fun _ => trivial⟩, ?_⟩
      · exact ⟨fun h => absurd h (by decide), fun h => absurd h h1⟩
      · exact ⟨fun h => absurd h (by decide), fun h => absurd h2 (not_lt.mpr h)⟩
    · simp only [assignSegment, if_neg h1, if_neg h2]
      refine ⟨?_, ?_, ⟨fun _ => le_of_not_lt h2, fun _ => trivial⟩⟩
      · exact ⟨fun h => absurd h (by decide), fun h => absurd h h1⟩
      · exact ⟨fun h => absurd h (by decide), fun ⟨_, h⟩ => absurd h h2⟩

/-- C9: `run` (and the report computed from it) is a pure function of the
configuration and the random draw streams: two executions fed pointwise
equal uniform/visit draws produce identical row sequences and identical
reports. -/
theorem run_deterministic_under_fixed_draws (n : ℕ) (s1 s2 : ℕ → ℚ)
    (v1 v2 : ℕ → ℕ → ℕ) (hs : ∀ i, s1 i = s2 i)
    (hv : ∀ u m, v1 u m = v2 u m) :
    run n s1 v1 = run n s2 v2 ∧
      analyzeTotalProfit (run n s1 v1) = analyzeTotalProfit (run n s2 v2) := by
  have hs' : s1 = s2 := funext hs
  have hv' : v1 = v2 := funext fun u => funext fun m => hv u m
  subst hs' hv'
  exact ⟨rfl, rfl⟩

/-- Witness for C9: two syntactically different but pointwise equal draw
streams give the same rows. -/
theorem run_deterministic_under_fixed_draws_witness :
    run 2 (fun _ => 1/2) (fun u m => u + m) = run 2 (fun _ => 2/4) (fun u m => m + u) :=
  (run_deterministic_under_fixed_draws 2 _ _ _ _ (fun _ => by norm_num)
    (fun u m => Nat.add_comm u m)).1

/-- Every plan in the hardcoded catalog has a non-negative overage price. -/
lemma enginePlans_extra_nonneg : ∀ p ∈ enginePlans, (0 : ℚ) ≤ p.extra := by
  intro p hp
  simp only [enginePlans, List.mem_cons, List.not_mem_nil, or_false] at hp
  rcases hp with rfl | rfl | rfl | rfl <;> norm_num

/-- Every plan in the hardcoded catalog costs at least the Lite price 20. -/
lemma enginePlans_price_ge : ∀ p ∈ enginePlans, (20 : ℚ) ≤ p.price := by
  intro p hp
  simp only [enginePlans, List.mem_cons, List.not_mem_nil, or_false] at hp
  rcases hp with rfl | rfl | rfl | rfl <;> norm_num

/-- C5: for every plan of the engine's catalog the monthly bill is monotone
non-decreasing in the visit count. -/
theorem engine_monthly_bill_monotone (plan : Plan) (hp : plan ∈ enginePlans)
    (v1 v2 : ℕ) (h : v1 ≤ v2) :
    monthlyBill plan v1 ≤ monthlyBill plan v2 := by
  have hextra : (0 : ℚ) ≤ plan.extra := enginePlans_extra_nonneg plan hp
  unfold monthlyBill
  apply add_le_add_left
  apply mul_le_mul_of_nonneg_right _ hextra
  have hov : overage plan v1 ≤ overage plan v2 := by
    unfold overage
    cases plan.included with
    | none => exact le_refl _
    | some inc => exact Nat.sub_le_sub_right h inc
  exact_mod_cast hov

/-- Witness for C5: Standard Plan, 3 ≤ 9 visits. -/
theorem engine_monthly_bill_monotone_witness :
    monthlyBill { name := "Standard Plan", price := 50,
                  included := some 6, extra := 10 } 3
      ≤ monthlyBill { name := "Standard Plan", price := 50,
                      included := some 6, extra := 10 } 9 :=
  engine_monthly_bill_monotone _
    (List.mem_cons_of_mem _ (List.mem_cons_self _ _)) 3 9 (by norm_num)

/-- C7: every produced row satisfies the economic identities
(`company_revenue = user_annual_cost`,
`company_cost = annual_visits * cost_per_visit`,
`company_profit = revenue - cost`, `annual_visits` the sum of the user's 12
monthly draws), and a run over `n` users yields exactly `n` rows with
sequential ids `1..n`. -/
theorem run_row_economic_identities (n : ℕ) (segU : ℕ → ℚ)
    (visit : ℕ → ℕ → ℕ) :
    (run n segU visit).length = n ∧
    (run n segU visit).map (·.user_id) = (List.range n).map (· + 1) ∧
    (run n segU visit).map (·.annual_visits)
      = (List.range n).map (fun i => (monthDraws visit (i + 1)).sum) ∧
    ∀ row ∈ run n segU visit,
      row.company_revenue = row.user_annual_cost ∧
      row.company_cost = (row.annual_visits : ℚ) * cost_per_visit ∧
      row.company_profit = row.company_revenue - row.company_cost := by
  refine ⟨by simp [run], ?_, ?_, ?_⟩
  · simp only [run, List.map_map]
    rfl
  · simp only [run, List.map_map]
    rfl
  · intro row hrow
    simp only [run, List.mem_map] at hrow
    obtain ⟨i, _, rfl⟩ := hrow
    simp [simulateUser]

/-- Witness for C7: the identities hold at the concrete single-user run. -/
theorem run_row_economic_identities_witness :
    (simulateUser enginePlans cost_per_visit 1 0
        (monthDraws (fun _ _ => 0) 1)).company_revenue
      = (simulateUser enginePlans cost_per_visit 1 0
          (monthDraws (fun _ _ => 0) 1)).user_annual_cost :=
  ((run_row_economic_identities 1 (fun _ => 0) (fun _ _ => 0)).2.2.2 _
    (by simp [run])).1

/-- C1: each produced row's `user_annual_cost` is the minimum over the
catalog of the annual costs recomputed from that user's 12 monthly draws,
and the chosen plan is the first plan in catalog insertion order attaining
that minimum (every plan on the prefix before it is strictly more
expensive). -/
theorem run_selects_argmin_first_wins (n : ℕ) (segU : ℕ → ℚ)
    (visit : ℕ → ℕ → ℕ) (i : ℕ) (hi : i < n) :
    ∃ row, (run n segU visit)[i]? = some row ∧
      (∀ p ∈ enginePlans,
        row.user_annual_cost ≤ annualCost p (monthDraws visit (i + 1))) ∧
      ∃ l₁ l₂ p, enginePlans = l₁ ++ p :: l₂ ∧
        p.name = row.chosen_plan ∧
        annualCost p (monthDraws visit (i + 1)) = row.user_annual_cost ∧
        ∀ q ∈ l₁,
          row.user_annual_cost < annualCost q (monthDraws visit (i + 1)) := by
  refine ⟨simulateUser enginePlans cost_per_visit (i + 1) (segU (i + 1))
    (monthDraws visit (i + 1)), ?_, ?_⟩
  · simp [run, List.getElem?_map, List.getElem?_range, hi]
  · have h := chooseBest_spec enginePlans (monthDraws visit (i + 1))
      enginePlans_names_nodup (by simp [enginePlans])
    simp only [simulateUser]
    exact h

/-- Witness for C1: the argmin characterization at the concrete
six-visits-per-month run. -/
theorem run_selects_argmin_first_wins_witness :
    ∃ row, (run 1 (fun _ => 0) (fun _ _ => 6))[0]? = some row ∧
      (∀ p ∈ enginePlans,
        row.user_annual_cost ≤ annualCost p (monthDraws (fun _ _ => 6) 1)) ∧
      ∃ l₁ l₂ p, enginePlans = l₁ ++ p :: l₂ ∧
        p.name = row.chosen_plan ∧
        annualCost p (monthDraws (fun _ _ => 6) 1) = row.user_annual_cost ∧
        ∀ q ∈ l₁,
          row.user_annual_cost < annualCost q (monthDraws (fun _ _ => 6) 1) :=
  run_selects_argmin_first_wins 1 (fun _ => 0) (fun _ _ => 6) 0 (by norm_num)

/-- C10: the monthly bill of any plan with non-negative overage price is at
least the plan's base monthly price; the engine catalog's minimum monthly
price is 20; hence every produced row's `user_annual_cost` (and so
`company_revenue`) is at least `12 * 20`. -/
theorem monthly_bill_and_annual_cost_lower_bounds :
    (∀ (plan : Plan) (v : ℕ),
      0 ≤ plan.extra → plan.price ≤ monthlyBill plan v) ∧
    (∀ p ∈ enginePlans, (20 : ℚ) ≤ p.price) ∧
    (∀ (n : ℕ) (segU : ℕ → ℚ) (visit : ℕ → ℕ → ℕ),
      ∀ row ∈ run n segU visit, 12 * 20 ≤ row.user_annual_cost) := by
  have hbill : ∀ (plan : Plan) (v : ℕ),
      0 ≤ plan.extra → plan.price ≤ monthlyBill plan v := by
    intro plan v hx
    unfold monthlyBill
    exact le_add_of_nonneg_right (mul_nonneg (Nat.cast_nonneg _) hx)
  refine ⟨hbill, enginePlans_price_ge, ?_⟩
  intro n segU visit row hrow
  simp only [run, List.mem_map] at hrow
  obtain ⟨i, _, rfl⟩ := hrow
  simp only [simulateUser]
  obtain ⟨_, l₁, l₂, p, hsplit, _, hval, _⟩ :=
    chooseBest_spec enginePlans (monthDraws visit (i + 1))
      enginePlans_names_nodup (by simp [enginePlans])
  have hp : p ∈ enginePlans := by
    rw [hsplit]
    exact List.mem_append.mpr (Or.inr (List.mem_cons_self _ _))
  have hsum : (((monthDraws visit (i + 1)).map (monthlyBill p)).length : ℚ) * p.price
      ≤ annualCost p (monthDraws visit (i + 1)) :=
    length_mul_le_sum p.price ((monthDraws visit (i + 1)).map (monthlyBill p))
      (fun x hx => by
        obtain ⟨v, _, rfl⟩ := List.mem_map.mp hx
        exact hbill p v (enginePlans_extra_nonneg p hp))
  have h12 : ((monthDraws visit (i + 1)).map (monthlyBill p)).length = 12 := by
    simp [monthDraws]
  rw [h12] at hsum
  have hprice := enginePlans_price_ge p hp
  calc (12 : ℚ) * 20 ≤ 12 * p.price := by nlinarith
    _ ≤ annualCost p (monthDraws visit (i + 1)) := by exact_mod_cast hsum
    _ = _ := hval

/-- Witness for C10: concrete Lite-plan bill bound and the revenue floor at
the concrete six-visits run. -/
theorem monthly_bill_and_annual_cost_lower_bounds_witness :
    (20 : ℚ) ≤ monthlyBill { name := "Lite Plan", price := 20,
                             included := some 2, extra := 15 } 7 ∧
    (12 * 20 : ℚ) ≤ (simulateUser enginePlans cost_per_visit 1 0
        (monthDraws (fun _ _ => 6) 1)).user_annual_cost :=
  ⟨monthly_bill_and_annual_cost_lower_bounds.1 _ 7 (by norm_num),
   monthly_bill_and_annual_cost_lower_bounds.2.2 1 (fun _ => 0) (fun _ _ => 6) _
     (by simp [run])⟩

end Healthcare
